import Mathlib

/-!
Shallow embedding of the repository `almogtavor/fcf-to-prices-relation`
(`src/build_fcf_dataset.py` and `src/build_fcf_dataset_simfin.py`).

The two scripts are the same four-stage pandas pipeline, differing only in
which lag windows and output columns they use.  The embedding therefore
parameterises the pipeline by the list of configured lags (`[4, 8]` for the
basic variant, `[2, 4, 8, 12]` for the simfin variant).

Modelling conventions:
* Dates (`Report Date`, `TradeDate`) are days since 1970-01-01 as `ℤ`;
  `pd.Timedelta(days=7)` becomes `+ 7`, and `.dt.year` becomes `yearOfDay`
  (the proleptic-Gregorian civil-from-days computation).
* Numeric columns present in the provider tables (OCF, CAPEX, Shares, Adj.
  Close) are modelled as exact rationals `ℚ` (well-formed inputs).  Values
  that the pipeline itself computes by division or by a lagged `shift` are
  modelled by `PdVal`, a float64-style scalar with `NaN` and both
  infinities, because pandas produces `NaN` (null) for a missing shift and
  `±inf` / `NaN` for division by zero.
* Each dataframe is a list of rows; `groupby("Ticker").shift(L)` is the
  value of the L-th previous same-ticker row in table order.
-/

/-- A pandas float64 cell as far as this pipeline can observe it: `nan`
(pandas' null), the two infinities, or an exact finite value. -/
inductive PdVal where
  | nan : PdVal
  | pinf : PdVal
  | ninf : PdVal
  | val : ℚ → PdVal
deriving DecidableEq

/-- IEEE-754 subtraction on `PdVal` (the cases float64 distinguishes). -/
def PdVal.sub : PdVal → PdVal → PdVal
  | .nan, _ => .nan
  | _, .nan => .nan
  | .pinf, .pinf => .nan
  | .pinf, .ninf => .pinf
  | .pinf, .val _ => .pinf
  | .ninf, .ninf => .nan
  | .ninf, .pinf => .ninf
  | .ninf, .val _ => .ninf
  | .val _, .pinf => .ninf
  | .val _, .ninf => .pinf
  | .val a, .val b => .val (a - b)

/-- IEEE-754 division on `PdVal`: dividing a nonzero finite value by zero
gives a signed infinity, dividing zero by zero gives `nan` (this is what
pandas/numpy float64 division does; there is no zero-check in the code). -/
def PdVal.div : PdVal → PdVal → PdVal
  | .nan, _ => .nan
  | _, .nan => .nan
  | .pinf, .pinf => .nan
  | .pinf, .ninf => .nan
  | .ninf, .pinf => .nan
  | .ninf, .ninf => .nan
  | .pinf, .val b => if b < 0 then .ninf else .pinf
  | .ninf, .val b => if b < 0 then .pinf else .ninf
  | .val _, .pinf => .val 0
  | .val _, .ninf => .val 0
  | .val a, .val b =>
      if b = 0 then (if a = 0 then .nan else if 0 < a then .pinf else .ninf)
      else .val (a / b)

/-- `isNull` is what `dropna` / "undefined (null)" sees: only `NaN` is null
(infinities are not null in pandas). -/
def PdVal.isNull : PdVal → Bool
  | .nan => true
  | _ => false

/-- Division of two finite values, as the pipeline's column divisions do. -/
def pdDivQ (a b : ℚ) : PdVal := PdVal.div (.val a) (.val b)

/-! ## Retry wrapper (`retry`, src lines 35-44 / 39-48) -/

/-- Outcome of one attempt of the wrapped provider call: a normal return or
a raised `HTTPError` carrying its response status code. -/
inductive CallResult (α : Type) where
  | ok : α → CallResult α
  | httpErr : ℕ → CallResult α
deriving DecidableEq

/-- Observable result of `retry`: the returned value or the re-raised
status, together with the sequence of back-off sleeps performed, plus the
(unreachable for `MAX_RETRY > 0`) implicit `None` fall-through of the
Python `for` loop. -/
inductive RetryResult (α : Type) where
  | success : α → List ℕ → RetryResult α
  | raised : ℕ → List ℕ → RetryResult α
  | noneReturn : List ℕ → RetryResult α
deriving DecidableEq

def MAX_RETRY : ℕ := 5

def RETRY_DELAY : ℕ := 8

/-- The body of `retry`'s `for i in range(MAX_RETRY)` loop, with `fuel` the
number of remaining iterations and `i` the current attempt index.  On an
`HTTPError` it re-raises when this is the last attempt or the status is not
5xx, otherwise sleeps `RETRY_DELAY * 2 ^ i` and continues. -/
def retryFrom {α : Type} (calls : ℕ → CallResult α) :
    ℕ → ℕ → List ℕ → RetryResult α
  | 0, _, sl => .noneReturn sl
  | fuel + 1, i, sl =>
      match calls i with
      | .ok v => .success v sl
      | .httpErr s =>
          if i = MAX_RETRY - 1 ∨ ¬(500 ≤ s ∧ s < 600) then .raised s sl
          else retryFrom calls fuel (i + 1) (sl ++ [RETRY_DELAY * 2 ^ i])

/-- `retry(func, ...)` where `calls i` is the outcome of the `i`-th attempt
of `func(*args, **kwargs)`. -/
def retry {α : Type} (calls : ℕ → CallResult α) : RetryResult α :=
  retryFrom calls MAX_RETRY 0 []

/-! ## Calendar: `.dt.year` on a day number -/

/-- Year of a proleptic-Gregorian day number (days since 1970-01-01); this
is `pandas.Series.dt.year` restricted to midnight timestamps.  Standard
civil-from-days computation using floor division. -/
def yearOfDay (z : ℤ) : ℤ :=
  let d := z + 719468
  let era := Int.fdiv d 146097
  let doe := d - era * 146097
  let yoe := Int.fdiv (doe - Int.fdiv doe 1460 + Int.fdiv doe 36524 - Int.fdiv doe 146096) 365
  let y := yoe + era * 400
  let doy := doe - (365 * yoe + Int.fdiv yoe 4 - Int.fdiv yoe 100)
  let mp := Int.fdiv (5 * doy + 2) 153
  let m := if mp < 10 then mp + 3 else mp - 9
  if m ≤ 2 then y + 1 else y

def START_YEAR : ℤ := 2000

/-! ## CapEx column resolution (src lines 25-30, 58-60) -/

def CAPEX_CANDS : List String :=
  ["Change in Fixed Assets & Intangibles",
   "Purchase of PPE & Intangibles, net",
   "Capital Expenditures (Fixed Assets)",
   "Capital Expenditures"]

/-- `next((c for c in CAPEX_CANDS if c in cf.columns), None)`: the first
candidate name present among the cash-flow table's columns. -/
def capexCol (cols : List String) : Option String :=
  CAPEX_CANDS.find? (fun c => c ∈ cols)

/-! ## Data model -/

/-- A row of the quarterly cash-flow table after column selection/renaming:
`Ticker`, `Report Date`, `OCF`, `CAPEX` (the resolved CapEx column). -/
structure CFRow where
  ticker : String
  rd : ℤ
  ocf : ℚ
  capex : ℚ
deriving DecidableEq

/-- `cf["FCF"] = cf["OCF"] + cf["CAPEX"]` (src line 65 / 73). -/
def CFRow.fcf (c : CFRow) : ℚ := c.ocf + c.capex

/-- A row of the quarterly income table after column selection: `Ticker`,
`Report Date`, `Shares (Basic)`. -/
structure IncRow where
  ticker : String
  rd : ℤ
  shares : ℚ
deriving DecidableEq

/-- A row of the merged fundamentals frame `fund` (before growth columns). -/
structure FundRow where
  ticker : String
  rd : ℤ
  ocf : ℚ
  capex : ℚ
  shares : ℚ
deriving DecidableEq

def FundRow.fcf (f : FundRow) : ℚ := f.ocf + f.capex

/-- `fund["FCF_per_share"] = fund["FCF"] / fund["Shares (Basic)"]`
(src line 75 / 88); float division, hence a `PdVal`. -/
def FundRow.fcfps (f : FundRow) : PdVal := pdDivQ f.fcf f.shares

/-- A row of the daily share-price frame `px` after renaming:
`Ticker`, `TradeDate`, `Price` (adjusted close). -/
structure PxRow where
  ticker : String
  td : ℤ
  price : ℚ
deriving DecidableEq

/-- A row of the alignment frame (`fund_keyed` left-merged with `px`):
a fundamentals key paired with one candidate price observation. -/
structure CandRow where
  ticker : String
  rpt : ℤ
  td : ℤ
  price : ℚ
deriving DecidableEq

/-- `fund` row extended with its FCF-per-share growth columns, one entry
per configured lag (e.g. `YoY_FCFps_growth`, `YoY2_FCFps_growth`). -/
structure FundGRow where
  base : FundRow
  growths : List PdVal
deriving DecidableEq

/-- A `merged` row that survived `dropna(subset=["Price"])`: the
fundamentals row together with its matched `TradeDate` and `Price`. -/
structure AlignedRow where
  fund : FundGRow
  td : ℤ
  price : ℚ
deriving DecidableEq

/-- A `merged` row after the metrics stage: market cap and the price
growth columns (one entry per configured lag). -/
structure MetricRow where
  a : AlignedRow
  mcap : ℚ
  priceGrowths : List PdVal
deriving DecidableEq

/-- A row of the final output table (column selection, src lines 134-139 /
156-165; `Shares (Basic)` and `TradeDate` are dropped here). -/
structure FinalRow where
  ticker : String
  rd : ℤ
  price : ℚ
  priceGrowths : List PdVal
  mcap : ℚ
  fcf : ℚ
  fcfps : PdVal
  fcfpsGrowths : List PdVal
deriving DecidableEq

/-! ## Stage 1: fundamentals -/

/-- `cf.merge(inc, on=["Ticker","Report Date"])` (inner merge, src line
72 / 85): for each cash-flow row in order, all income rows with the same
key, in order. -/
def innerMergeFund : List CFRow → List IncRow → List FundRow
  | [], _ => []
  | c :: cs, incs =>
      ((incs.filter (fun i => i.ticker = c.ticker ∧ i.rd = c.rd)).map
        (fun i => FundRow.mk c.ticker c.rd c.ocf c.capex i.shares)) ++
      innerMergeFund cs incs

/-- `.loc[lambda d: d["Report Date"].dt.year >= START_YEAR]` (src 73/86). -/
def yearFilter (l : List FundRow) : List FundRow :=
  l.filter (fun f => START_YEAR ≤ yearOfDay f.rd)

/-- Strict lexicographic order on strings through their character lists:
this is the order pandas uses for string sort keys, and it is stated via
`List Char` so that comparisons are decidable by structural recursion. -/
def strLT (a b : String) : Prop := a.data < b.data

theorem strLT_iff (a b : String) : strLT a b ↔ a < b :=
  String.lt_iff_toList_lt.symm

theorem strLT_asymm_of_eq {a b : String} (h : strLT a b) (he : a = b) : False :=
  absurd (he ▸ (strLT_iff a b).mp h) (lt_irrefl b)

instance : DecidableRel strLT := fun a b =>
  inferInstanceAs (Decidable (a.data < b.data))

/-- The sort key of `fund.sort_values(["Ticker", "Report Date"])`. -/
def fundLE (a b : FundRow) : Prop :=
  strLT a.ticker b.ticker ∨ (a.ticker = b.ticker ∧ a.rd ≤ b.rd)

instance : DecidableRel fundLE := fun a b =>
  inferInstanceAs (Decidable (strLT a.ticker b.ticker ∨
    (a.ticker = b.ticker ∧ a.rd ≤ b.rd)))

instance : IsTotal FundRow fundLE :=
  ⟨fun a b => by
    rcases lt_trichotomy a.ticker b.ticker with h | h | h
    · exact Or.inl (Or.inl ((strLT_iff _ _).mpr h))
    · rcases le_total a.rd b.rd with h2 | h2
      · exact Or.inl (Or.inr ⟨h, h2⟩)
      · exact Or.inr (Or.inr ⟨h.symm, h2⟩)
    · exact Or.inr (Or.inl ((strLT_iff _ _).mpr h))⟩

instance : IsTrans FundRow fundLE :=
  ⟨fun a b c hab hbc => by
    rcases hab with h1 | ⟨e1, l1⟩ <;> rcases hbc with h2 | ⟨e2, l2⟩
    · exact Or.inl ((strLT_iff _ _).mpr
        (lt_trans ((strLT_iff _ _).mp h1) ((strLT_iff _ _).mp h2)))
    · exact Or.inl (e2 ▸ h1)
    · exact Or.inl (e1 ▸ h2)
    · exact Or.inr ⟨e1.trans e2, le_trans l1 l2⟩⟩

/-- `fund.sort_values(["Ticker","Report Date"])` (src line 78 / 91). -/
def sortFund (l : List FundRow) : List FundRow :=
  List.insertionSort fundLE l

/-! ## Groupwise trailing-lag growth (`groupby("Ticker").shift(L)`) -/

/-- The lagged value at position `t` of a per-ticker value sequence `xs`:
`groupby(...).shift(L)` yields `xs[t - L]` when at least `L` prior entries
exist in the group, pandas `NaN` otherwise. -/
def seqLag (L : ℕ) (xs : List PdVal) (t : ℕ) : PdVal :=
  if L ≤ t then xs.getD (t - L) .nan else .nan

/-- The trailing-lag growth `(value[t] - value[t-L]) / value[t-L]` of a
per-ticker value sequence, in float64 arithmetic. -/
def seqGrowth (L : ℕ) (xs : List PdVal) (t : ℕ) : PdVal :=
  ((xs.getD t .nan).sub (seqLag L xs t)).div (seqLag L xs t)

/-- One step of the groupwise growth computation.  `seen` is the list of
rows already processed (the table before the current row, in table order).
The current row `r` sits at position `p` = (number of already-seen rows of
the same ticker) of its ticker's value sequence, whose seen part is
`grp = map v (seen.filter sameTicker)`; `shift(L)` there is the value `L`
positions back (`NaN` when fewer than `L` prior same-ticker rows exist)
and the growth column is `(v - lag) / lag` in float64 arithmetic, i.e.
exactly `seqGrowth L (grp ++ [v r]) p`.  One output entry per configured
lag. -/
def groupGrowths {ρ : Type} (lags : List ℕ) (key : ρ → String) (v : ρ → PdVal) :
    List ρ → List ρ → List (ρ × List PdVal)
  | _, [] => []
  | seen, r :: rest =>
      (r, lags.map (fun L =>
          seqGrowth L (((seen.filter (fun s => key s = key r)).map v) ++ [v r])
            ((seen.filter (fun s => key s = key r)).map v).length)) ::
      groupGrowths lags key v (seen ++ [r]) rest

/-- Growth columns of the fundamentals frame: `FCF_per_share` shifted by
each configured lag, grouped by ticker (src lines 78-82 / 91-102). -/
def fundGrowth (lags : List ℕ) (rows : List FundRow) : List FundGRow :=
  (groupGrowths lags FundRow.ticker FundRow.fcfps [] rows).map
    (fun p => FundGRow.mk p.1 p.2)

/-- The fundamentals frame before the growth columns: inner merge,
start-year filter, sort (src lines 71-78 / 84-91). -/
def fundRows (cfs : List CFRow) (incs : List IncRow) : List FundRow :=
  sortFund (yearFilter (innerMergeFund cfs incs))

/-- The fundamentals stage output `fund` (src lines 71-82 / 84-102):
inner merge, start-year filter, sort, growth columns. -/
def fund (lags : List ℕ) (cfs : List CFRow) (incs : List IncRow) : List FundGRow :=
  fundGrowth lags (fundRows cfs incs)

/-! ## Stage 2/3: price alignment -/

/-- `fund_keyed = fund[["Ticker","Report Date"]]` (src line 97 / 117). -/
def fundKeyed (f : List FundGRow) : List (String × ℤ) :=
  f.map (fun g => (g.base.ticker, g.base.rd))

/-- `fund_keyed.merge(px, on="Ticker", how="left")` restricted to the rows
that have a price match; unmatched keys get `NaN` trade dates, which the
window filter below removes, so they are dropped here directly. -/
def candAll : List (String × ℤ) → List PxRow → List CandRow
  | [], _ => []
  | k :: ks, px =>
      ((px.filter (fun p => p.ticker = k.1)).map
        (fun p => CandRow.mk k.1 k.2 p.td p.price)) ++
      candAll ks px

/-- The window filter
`(TradeDate >= RptDate) & (TradeDate <= RptDate + 7 days)` (src 103-104). -/
def inWindow (c : CandRow) : Bool :=
  decide (c.rpt ≤ c.td) && decide (c.td ≤ c.rpt + 7)

/-- The sort key of `.sort_values(["Ticker","RptDate","TradeDate"])`. -/
def candLE (a b : CandRow) : Prop :=
  strLT a.ticker b.ticker ∨
    (a.ticker = b.ticker ∧
      (a.rpt < b.rpt ∨ (a.rpt = b.rpt ∧ a.td ≤ b.td)))

instance : DecidableRel candLE := fun a b =>
  inferInstanceAs (Decidable (strLT a.ticker b.ticker ∨
    (a.ticker = b.ticker ∧
      (a.rpt < b.rpt ∨ (a.rpt = b.rpt ∧ a.td ≤ b.td)))))

instance : IsTotal CandRow candLE :=
  ⟨fun a b => by
    rcases lt_trichotomy a.ticker b.ticker with h | h | h
    · exact Or.inl (Or.inl ((strLT_iff _ _).mpr h))
    · rcases lt_trichotomy a.rpt b.rpt with h2 | h2 | h2
      · exact Or.inl (Or.inr ⟨h, Or.inl h2⟩)
      · rcases le_total a.td b.td with h3 | h3
        · exact Or.inl (Or.inr ⟨h, Or.inr ⟨h2, h3⟩⟩)
        · exact Or.inr (Or.inr ⟨h.symm, Or.inr ⟨h2.symm, h3⟩⟩)
      · exact Or.inr (Or.inr ⟨h.symm, Or.inl h2⟩)
    · exact Or.inr (Or.inl ((strLT_iff _ _).mpr h))⟩

instance : IsTrans CandRow candLE :=
  ⟨fun a b c hab hbc => by
    rcases hab with h1 | ⟨e1, h1⟩ <;> rcases hbc with h2 | ⟨e2, h2⟩
    · exact Or.inl ((strLT_iff _ _).mpr
        (lt_trans ((strLT_iff _ _).mp h1) ((strLT_iff _ _).mp h2)))
    · exact Or.inl (e2 ▸ h1)
    · exact Or.inl (e1 ▸ h2)
    · refine Or.inr ⟨e1.trans e2, ?_⟩
      rcases h1 with h1 | ⟨e1', h1⟩ <;> rcases h2 with h2 | ⟨e2', h2⟩
      · exact Or.inl (lt_trans h1 h2)
      · exact Or.inl (e2' ▸ h1)
      · exact Or.inl (e1' ▸ h2)
      · exact Or.inr ⟨e1'.trans e2', le_trans h1 h2⟩⟩

/-- `groupby(["Ticker","RptDate"], as_index=False).first()` on a frame with
no nulls: the first row of each (Ticker, RptDate) group, groups in order of
first occurrence (key-sorted input ⇒ key-sorted output).  Structural fuel
recursion (`fuel = length` suffices). -/
def groupFirstAux : ℕ → List CandRow → List CandRow
  | 0, _ => []
  | _, [] => []
  | fuel + 1, c :: rest =>
      c :: groupFirstAux fuel
            (rest.filter (fun d => ¬(d.ticker = c.ticker ∧ d.rpt = c.rpt)))

def groupFirst (l : List CandRow) : List CandRow :=
  groupFirstAux l.length l

/-- The alignment frame `temp` (src lines 101-108 / 119-126): candidate
rows, window filter, sort by (Ticker, RptDate, TradeDate), first row per
key. -/
def temp (keys : List (String × ℤ)) (px : List PxRow) : List CandRow :=
  groupFirst (List.insertionSort candLE ((candAll keys px).filter inWindow))

/-- One fundamentals row's contribution to the left merge with `temp`:
its matching `temp` rows, or a single `none` (NaN price) row when no
match exists. -/
def leftMergeRow (f : FundGRow) (tmp : List CandRow) :
    List (FundGRow × Option CandRow) :=
  match tmp.filter (fun t => t.ticker = f.base.ticker ∧ t.rpt = f.base.rd) with
  | [] => [(f, none)]
  | ms => ms.map (fun m => (f, some m))

/-- `fund.merge(temp, left_on=["Ticker","Report Date"], right_on=
["Ticker","RptDate"], how="left")` (src lines 111-116 / 129-135): each
fundamentals row paired with its matching `temp` rows, or with `none`
(NaN price) when no match exists; left row order preserved. -/
def leftMergeTemp : List FundGRow → List CandRow → List (FundGRow × Option CandRow)
  | [], _ => []
  | f :: fs, tmp => leftMergeRow f tmp ++ leftMergeTemp fs tmp

def defaultCand : CandRow := CandRow.mk "" 0 0 0

/-- `merged.dropna(subset=["Price"])` (src line 119 / 136): keep only the
rows whose left merge found a price, and expose `TradeDate`/`Price`. -/
def dropnaPrice (l : List (FundGRow × Option CandRow)) : List AlignedRow :=
  (l.filter (fun fo => fo.2.isSome)).map
    (fun fo => AlignedRow.mk fo.1 (fo.2.getD defaultCand).td (fo.2.getD defaultCand).price)

/-- The raw left-merged frame `merged` before `dropna` (src 111-116). -/
def mergedRaw (lags : List ℕ) (cfs : List CFRow) (incs : List IncRow)
    (pxs : List PxRow) : List (FundGRow × Option CandRow) :=
  leftMergeTemp (fund lags cfs incs) (temp (fundKeyed (fund lags cfs incs)) pxs)

/-- The aligned frame: `merged` after `dropna(subset=["Price"])`. -/
def merged (lags : List ℕ) (cfs : List CFRow) (incs : List IncRow)
    (pxs : List PxRow) : List AlignedRow :=
  dropnaPrice (mergedRaw lags cfs incs pxs)

/-! ## Stage 4: metrics and final output -/

/-- Market cap and the price growth columns (src lines 125-131 / 142-153):
`Market_Cap = Price * Shares (Basic)`, and the same groupwise trailing-lag
growth algorithm applied to `Price`. -/
def withMetrics (lags : List ℕ) (rows : List AlignedRow) : List MetricRow :=
  (groupGrowths lags (fun a => a.fund.base.ticker) (fun a => PdVal.val a.price) [] rows).map
    (fun p => MetricRow.mk p.1 (p.1.price * p.1.fund.base.shares) p.2)

def metrics (lags : List ℕ) (cfs : List CFRow) (incs : List IncRow)
    (pxs : List PxRow) : List MetricRow :=
  withMetrics lags (merged lags cfs incs pxs)

/-- Column selection of the final output (src lines 134-139 / 156-165). -/
def toFinal (m : MetricRow) : FinalRow :=
  FinalRow.mk m.a.fund.base.ticker m.a.fund.base.rd m.a.price m.priceGrowths
    m.mcap m.a.fund.base.fcf m.a.fund.base.fcfps m.a.fund.growths

/-- The final output table `final`. -/
def final (lags : List ℕ) (cfs : List CFRow) (incs : List IncRow)
    (pxs : List PxRow) : List FinalRow :=
  (metrics lags cfs incs pxs).map toFinal

/-- The whole run: resolve the CapEx column first and abort with the
`KeyError` before producing any output if no candidate matches
(src lines 58-60 / 63-65); otherwise produce the final table. -/
def runPipeline (lags : List ℕ) (cfCols : List String) (cfs : List CFRow)
    (incs : List IncRow) (pxs : List PxRow) : Except String (List FinalRow) :=
  match capexCol cfCols with
  | none => Except.error "CapEx column not found"
  | some _ => Except.ok (final lags cfs incs pxs)

/-- Configured lags of `build_fcf_dataset.py` (1-year and 2-year). -/
def basicLags : List ℕ := [4, 8]

/-- Configured lags of `build_fcf_dataset_simfin.py` (6M/1Y/2Y/3Y). -/
def simfinLags : List ℕ := [2, 4, 8, 12]

/-! ## Helper lemmas: float64 scalars and the trailing-lag algorithm -/

theorem PdVal.sub_nan : ∀ x : PdVal, x.sub .nan = .nan := by
  intro x; cases x <;> rfl

theorem PdVal.div_nan : ∀ x : PdVal, x.div .nan = .nan := by
  intro x; cases x <;> rfl

/-- With fewer than `L` prior periods the lagged value is `NaN` and the
growth ratio is `NaN` (pandas null). -/
theorem seqGrowth_of_lt (L : ℕ) (xs : List PdVal) (t : ℕ) (h : t < L) :
    seqGrowth L xs t = PdVal.nan := by
  have : seqLag L xs t = PdVal.nan := by
    unfold seqLag
    rw [if_neg (by omega)]
  rw [seqGrowth, this, PdVal.sub_nan, PdVal.div_nan]

/-- With at least `L` prior periods and a finite nonzero lagged value, the
growth ratio is the exact rational `(cur - lag) / lag`. -/
theorem seqGrowth_formula (L : ℕ) (xs : List PdVal) (t : ℕ) (q c : ℚ)
    (hL : L ≤ t) (hlag : xs[t - L]? = some (PdVal.val q)) (hq : q ≠ 0)
    (hcur : xs[t]? = some (PdVal.val c)) :
    seqGrowth L xs t = PdVal.val ((c - q) / q) := by
  have h1 : seqLag L xs t = PdVal.val q := by
    unfold seqLag
    rw [if_pos hL, List.getD_eq_getElem?_getD, hlag]
    rfl
  have h2 : xs.getD t PdVal.nan = PdVal.val c := by
    rw [List.getD_eq_getElem?_getD, hcur]; rfl
  rw [seqGrowth, h1, h2, PdVal.sub, PdVal.div, if_neg hq]

/-- With at least `L` prior periods but a lagged value of exactly zero, the
growth ratio is `NaN` only when the current value is also zero; a nonzero
current value yields a signed infinity (not null). -/
theorem seqGrowth_zero_denom (L : ℕ) (xs : List PdVal) (t : ℕ) (c : ℚ)
    (hL : L ≤ t) (hlag : xs[t - L]? = some (PdVal.val 0))
    (hcur : xs[t]? = some (PdVal.val c)) :
    seqGrowth L xs t =
      if c = 0 then PdVal.nan else if 0 < c then PdVal.pinf else PdVal.ninf := by
  have h1 : seqLag L xs t = PdVal.val 0 := by
    unfold seqLag
    rw [if_pos hL, List.getD_eq_getElem?_getD, hlag]
    rfl
  have h2 : xs.getD t PdVal.nan = PdVal.val c := by
    rw [List.getD_eq_getElem?_getD, hcur]; rfl
  rw [seqGrowth, h1, h2, PdVal.sub, sub_zero, PdVal.div, if_pos rfl]

/-- The groupwise growth computation only annotates the rows: projecting
the row component back out returns the input table unchanged. -/
theorem groupGrowths_map_fst {ρ : Type} (lags : List ℕ) (key : ρ → String)
    (v : ρ → PdVal) :
    ∀ (rest seen : List ρ), (groupGrowths lags key v seen rest).map Prod.fst = rest
  | [], _ => rfl
  | r :: rest, seen => by
      simp only [groupGrowths, List.map_cons]
      rw [groupGrowths_map_fst lags key v rest (seen ++ [r])]

theorem groupGrowths_mem_fst {ρ : Type} {lags : List ℕ} {key : ρ → String}
    {v : ρ → PdVal} {rest seen : List ρ} {p : ρ × List PdVal}
    (h : p ∈ groupGrowths lags key v seen rest) : p.1 ∈ rest := by
  rw [← groupGrowths_map_fst lags key v rest seen]
  exact List.mem_map_of_mem Prod.fst h

/-- `seqGrowth` at position `t` only looks at entries up to `t`, so it is
unchanged by appending further entries. -/
theorem seqGrowth_append (L : ℕ) (xs ys : List PdVal) (t : ℕ) (h : t < xs.length) :
    seqGrowth L (xs ++ ys) t = seqGrowth L xs t := by
  have h1 : (xs ++ ys).getD t PdVal.nan = xs.getD t PdVal.nan := by
    rw [List.getD_eq_getElem?_getD, List.getD_eq_getElem?_getD, List.getElem?_append_left h]
  have h2 : seqLag L (xs ++ ys) t = seqLag L xs t := by
    unfold seqLag
    by_cases hL : L ≤ t
    · rw [if_pos hL, if_pos hL, List.getD_eq_getElem?_getD, List.getD_eq_getElem?_getD,
        List.getElem?_append_left (by omega)]
    · rw [if_neg hL, if_neg hL]
  rw [seqGrowth, seqGrowth, h1, h2]

/-- Bridge between the table-level groupwise computation and the
per-ticker sequence formulation: the `t`-th annotated row of ticker `tk`
carries, for each lag `L`, exactly the trailing-lag growth of the ticker's
value sequence at position (number of already-seen same-ticker rows) + t. -/
theorem groupGrowths_filter_getElem {ρ : Type} (lags : List ℕ) (key : ρ → String)
    (v : ρ → PdVal) (tk : String) :
    ∀ (rest seen : List ρ) (t : ℕ),
      ((groupGrowths lags key v seen rest).filter (fun p => key p.1 = tk))[t]? =
        ((rest.filter (fun r => key r = tk))[t]?).map (fun r =>
          (r, lags.map (fun L => seqGrowth L
                (((seen ++ rest).filter (fun s => key s = tk)).map v)
                ((seen.filter (fun s => key s = tk)).length + t))))
  | [], seen, t => by simp [groupGrowths]
  | r :: rest, seen, t => by
      by_cases hk : key r = tk
      · rw [groupGrowths,
          List.filter_cons_of_pos (p := fun q : ρ × List PdVal => decide (key q.1 = tk))
            (by simpa using hk),
          List.filter_cons_of_pos (p := fun s : ρ => decide (key s = tk)) (by simpa using hk)]
        cases t with
        | zero =>
            rw [List.getElem?_cons_zero, List.getElem?_cons_zero, Option.map_some']
            refine congrArg some (congrArg (fun gl => (r, gl)) ?_)
            refine List.map_congr_left (fun L _ => ?_)
            have hxs : ((seen ++ r :: rest).filter (fun s => key s = tk)).map v =
                (((seen.filter (fun s => key s = key r)).map v) ++ [v r]) ++
                  ((rest.filter (fun s => key s = tk)).map v) := by
              rw [List.filter_append,
                List.filter_cons_of_pos (p := fun s : ρ => decide (key s = tk))
                  (by simpa using hk),
                List.map_append, List.map_cons, hk, List.append_assoc, List.cons_append,
                List.nil_append]
            have hlen : (seen.filter (fun s => key s = tk)).length + 0 =
                ((seen.filter (fun s => key s = key r)).map v).length := by
              rw [hk, List.length_map, Nat.add_zero]
            rw [hxs, hlen]
            exact (seqGrowth_append L _ _ _ (by simp)).symm
        | succ t =>
            rw [List.getElem?_cons_succ, List.getElem?_cons_succ]
            rw [groupGrowths_filter_getElem lags key v tk rest (seen ++ [r]) t]
            have h1 : (seen ++ [r]) ++ rest = seen ++ r :: rest := by simp
            have h2 : ((seen ++ [r]).filter (fun s => key s = tk)).length =
                (seen.filter (fun s => key s = tk)).length + 1 := by
              rw [List.filter_append, List.length_append,
                List.filter_cons_of_pos (p := fun s : ρ => decide (key s = tk))
                  (by simpa using hk)]
              simp
            rw [h1, h2]
            have h3 : (seen.filter (fun s => key s = tk)).length + 1 + t =
                (seen.filter (fun s => key s = tk)).length + (t + 1) := by omega
            rw [h3]
      · rw [groupGrowths,
          List.filter_cons_of_neg (p := fun q : ρ × List PdVal => decide (key q.1 = tk))
            (by simpa using hk),
          List.filter_cons_of_neg (p := fun s : ρ => decide (key s = tk)) (by simpa using hk)]
        rw [groupGrowths_filter_getElem lags key v tk rest (seen ++ [r]) t]
        have h1 : (seen ++ [r]) ++ rest = seen ++ r :: rest := by simp
        have h2 : ((seen ++ [r]).filter (fun s => key s = tk)) =
            (seen.filter (fun s => key s = tk)) := by
          rw [List.filter_append,
            List.filter_cons_of_neg (p := fun s : ρ => decide (key s = tk))
              (by simpa using hk)]
          simp
        rw [h1, h2]

/-! ## Helper lemmas: price alignment -/

theorem mem_candAll_iff : ∀ (keys : List (String × ℤ)) (px : List PxRow) (c : CandRow),
    c ∈ candAll keys px ↔
      ∃ k ∈ keys, ∃ p ∈ px, p.ticker = k.1 ∧ c = CandRow.mk k.1 k.2 p.td p.price
  | [], px, c => by simp [candAll]
  | k :: ks, px, c => by
      simp only [candAll, List.mem_append, List.mem_map, List.mem_filter,
        mem_candAll_iff ks px c, List.mem_cons]
      constructor
      · rintro (⟨p, ⟨hp, he⟩, rfl⟩ | ⟨k', hk', p, hp, he, rfl⟩)
        · exact ⟨k, Or.inl rfl, p, hp, by simpa using he, rfl⟩
        · exact ⟨k', Or.inr hk', p, hp, he, rfl⟩
      · rintro ⟨k', hk', p, hp, he, rfl⟩
        rcases hk' with rfl | hk'
        · exact Or.inl ⟨p, ⟨hp, by simpa using he⟩, rfl⟩
        · exact Or.inr ⟨k', hk', p, hp, he, rfl⟩

theorem groupFirstAux_subset :
    ∀ (fuel : ℕ) (l : List CandRow), ∀ c ∈ groupFirstAux fuel l, c ∈ l
  | 0, _, c, hc => by simp [groupFirstAux] at hc
  | _ + 1, [], c, hc => by simp [groupFirstAux] at hc
  | fuel + 1, a :: rest, c, hc => by
      rw [groupFirstAux] at hc
      rcases List.mem_cons.mp hc with rfl | hc
      · exact List.mem_cons_self _ _
      · exact List.mem_cons_of_mem _
          (List.mem_of_mem_filter (groupFirstAux_subset fuel _ c hc))

/-- On a `candLE`-sorted list, every row chosen by `groupFirst` has the
minimal `TradeDate` among the rows of its (Ticker, RptDate) group. -/
theorem groupFirstAux_min :
    ∀ (fuel : ℕ) (l : List CandRow), l.Pairwise candLE →
      ∀ c ∈ groupFirstAux fuel l, ∀ d ∈ l,
        d.ticker = c.ticker → d.rpt = c.rpt → c.td ≤ d.td
  | 0, _, _, c, hc => by simp [groupFirstAux] at hc
  | _ + 1, [], _, c, hc => by simp [groupFirstAux] at hc
  | fuel + 1, a :: rest, hp, c, hc => by
      rw [groupFirstAux] at hc
      rw [List.pairwise_cons] at hp
      rcases List.mem_cons.mp hc with rfl | hc
      · intro d hd ht hr
        rcases List.mem_cons.mp hd with rfl | hd
        · exact le_refl _
        · rcases hp.1 d hd with h | ⟨e, h | ⟨e2, h⟩⟩
          · exact absurd ((strLT_iff _ _).mp h) (by rw [ht]; exact lt_irrefl _)
          · exact absurd h (by rw [hr]; exact lt_irrefl _)
          · exact h
      · intro d hd ht hr
        have hcmem : c ∈ rest.filter (fun d => ¬(d.ticker = a.ticker ∧ d.rpt = a.rpt)) :=
          groupFirstAux_subset fuel _ c hc
        have hcne : ¬(c.ticker = a.ticker ∧ c.rpt = a.rpt) :=
          of_decide_eq_true (List.mem_filter.mp hcmem).2
        have hdne : ¬(d.ticker = a.ticker ∧ d.rpt = a.rpt) := by
          intro ⟨h1, h2⟩
          exact hcne ⟨ht ▸ h1, hr ▸ h2⟩
        have hdrest : d ∈ rest := by
          rcases List.mem_cons.mp hd with rfl | hd
          · exact absurd ⟨rfl, rfl⟩ hdne
          · exact hd
        have hdf : d ∈ rest.filter (fun d => ¬(d.ticker = a.ticker ∧ d.rpt = a.rpt)) :=
          List.mem_filter.mpr ⟨hdrest, decide_eq_true hdne⟩
        exact groupFirstAux_min fuel _ (hp.2.filter _) c hc d hdf ht hr

/-- Every (Ticker, RptDate) group present in the input is represented in
the `groupFirst` output. -/
theorem groupFirstAux_cover :
    ∀ (fuel : ℕ) (l : List CandRow), l.length ≤ fuel →
      ∀ d ∈ l, ∃ c ∈ groupFirstAux fuel l, c.ticker = d.ticker ∧ c.rpt = d.rpt
  | 0, l, hfuel, d, hd => by
      rw [Nat.le_zero, List.length_eq_zero] at hfuel
      subst hfuel; simp at hd
  | _ + 1, [], _, d, hd => by simp at hd
  | fuel + 1, a :: rest, hfuel, d, hd => by
      rw [groupFirstAux]
      by_cases hsame : d.ticker = a.ticker ∧ d.rpt = a.rpt
      · exact ⟨a, List.mem_cons_self _ _, hsame.1.symm, hsame.2.symm⟩
      · have hdrest : d ∈ rest := by
          rcases List.mem_cons.mp hd with rfl | hd
          · exact absurd ⟨rfl, rfl⟩ hsame
          · exact hd
        have hdf : d ∈ rest.filter (fun e => ¬(e.ticker = a.ticker ∧ e.rpt = a.rpt)) :=
          List.mem_filter.mpr ⟨hdrest, decide_eq_true hsame⟩
        have hlen : (rest.filter
            (fun e => ¬(e.ticker = a.ticker ∧ e.rpt = a.rpt))).length ≤ fuel := by
          have := List.length_filter_le
            (fun e => decide ¬(e.ticker = a.ticker ∧ e.rpt = a.rpt)) rest
          have hr : rest.length ≤ fuel := by simpa using Nat.le_of_succ_le_succ hfuel
          omega
        obtain ⟨c, hc, h1, h2⟩ := groupFirstAux_cover fuel _ hlen d hdf
        exact ⟨c, List.mem_cons_of_mem _ hc, h1, h2⟩

/-- Provenance of a `temp` row: its key comes from `fund_keyed`, its trade
date and price come from an actual price row of the same ticker, it lies
in the 7-day window, and its trade date is minimal among all in-window
price rows of that key. -/
theorem temp_mem_spec (keys : List (String × ℤ)) (px : List PxRow) :
    ∀ c ∈ temp keys px,
      (c.ticker, c.rpt) ∈ keys ∧
      (∃ p ∈ px, p.ticker = c.ticker ∧ p.td = c.td ∧ p.price = c.price) ∧
      (c.rpt ≤ c.td ∧ c.td ≤ c.rpt + 7) ∧
      (∀ p ∈ px, p.ticker = c.ticker → c.rpt ≤ p.td → p.td ≤ c.rpt + 7 →
        c.td ≤ p.td) := by
  intro c hc
  have hms : c ∈ List.insertionSort candLE ((candAll keys px).filter inWindow) :=
    groupFirstAux_subset _ _ c hc
  have hmf : c ∈ (candAll keys px).filter inWindow := by
    rw [List.mem_insertionSort] at hms
    exact hms
  have hca : c ∈ candAll keys px := List.mem_of_mem_filter hmf
  have hwinb : inWindow c = true := List.of_mem_filter hmf
  have hwin : c.rpt ≤ c.td ∧ c.td ≤ c.rpt + 7 := by
    simpa [inWindow] using hwinb
  obtain ⟨k, hk, p, hp, hpt, hcval⟩ := (mem_candAll_iff keys px c).mp hca
  refine ⟨?_, ⟨p, hp, ?_, ?_, ?_⟩, hwin, ?_⟩
  · rw [hcval]
    simpa using hk
  · rw [hcval]; exact hpt
  · rw [hcval]
  · rw [hcval]
  · intro q hq hqt hq1 hq2
    have hdall : CandRow.mk c.ticker c.rpt q.td q.price ∈ candAll keys px := by
      refine (mem_candAll_iff keys px _).mpr ⟨k, hk, q, hq, ?_, ?_⟩
      · rw [hqt, hcval]
      · rw [hcval]
    have hdf : CandRow.mk c.ticker c.rpt q.td q.price ∈
        (candAll keys px).filter inWindow := by
      refine List.mem_filter.mpr ⟨hdall, ?_⟩
      simp only [inWindow]
      simp only [Bool.and_eq_true, decide_eq_true_eq]
      exact ⟨hq1, hq2⟩
    have hds : CandRow.mk c.ticker c.rpt q.td q.price ∈
        List.insertionSort candLE ((candAll keys px).filter inWindow) := by
      rw [List.mem_insertionSort]
      exact hdf
    have hpair : (List.insertionSort candLE
        ((candAll keys px).filter inWindow)).Pairwise candLE :=
      List.sorted_insertionSort candLE _
    exact groupFirstAux_min _ _ hpair c hc _ hds rfl rfl

/-- Every (Ticker, RptDate) key that has an in-window candidate appears in
`temp`. -/
theorem temp_cover (keys : List (String × ℤ)) (px : List PxRow) :
    ∀ d ∈ (candAll keys px).filter inWindow,
      ∃ c ∈ temp keys px, c.ticker = d.ticker ∧ c.rpt = d.rpt := by
  intro d hd
  have hd2 : d ∈ List.insertionSort candLE ((candAll keys px).filter inWindow) := by
    rw [List.mem_insertionSort]
    exact hd
  exact groupFirstAux_cover _ _ (le_refl _) d hd2

/-! ## Helper lemmas: left merge, dropna, metrics membership -/

theorem leftMergeRow_fst (f : FundGRow) (tmp : List CandRow) :
    ∀ x ∈ leftMergeRow f tmp, x.1 = f := by
  intro x hx
  unfold leftMergeRow at hx
  rcases h : tmp.filter (fun t => t.ticker = f.base.ticker ∧ t.rpt = f.base.rd) with
    _ | ⟨m, ms⟩
  · rw [h] at hx
    simp only [List.mem_singleton] at hx
    rw [hx]
  · rw [h] at hx
    obtain ⟨m', _, rfl⟩ := List.mem_map.mp hx
    rfl

theorem leftMergeRow_snd (f : FundGRow) (tmp : List CandRow) :
    ∀ x ∈ leftMergeRow f tmp, ∀ m : CandRow, x.2 = some m →
      m ∈ tmp ∧ m.ticker = f.base.ticker ∧ m.rpt = f.base.rd := by
  intro x hx m hm
  unfold leftMergeRow at hx
  rcases h : tmp.filter (fun t => t.ticker = f.base.ticker ∧ t.rpt = f.base.rd) with
    _ | ⟨m0, ms⟩
  · rw [h] at hx
    simp only [List.mem_singleton] at hx
    rw [hx] at hm
    exact absurd hm (by simp)
  · rw [h] at hx
    obtain ⟨m', hm', rfl⟩ := List.mem_map.mp hx
    have : m' = m := by simpa using hm
    subst this
    have hmf : m' ∈ tmp.filter
        (fun t => t.ticker = f.base.ticker ∧ t.rpt = f.base.rd) := by
      rw [h]; exact hm'
    have hprops : m'.ticker = f.base.ticker ∧ m'.rpt = f.base.rd :=
      of_decide_eq_true ((List.mem_filter.mp hmf).2)
    exact ⟨List.mem_of_mem_filter hmf, hprops.1, hprops.2⟩

theorem leftMergeTemp_mem :
    ∀ (fs : List FundGRow) (tmp : List CandRow)
      (x : FundGRow × Option CandRow), x ∈ leftMergeTemp fs tmp →
      x.1 ∈ fs ∧ ∀ m : CandRow, x.2 = some m →
        m ∈ tmp ∧ m.ticker = x.1.base.ticker ∧ m.rpt = x.1.base.rd
  | [], _, x, hx => by simp [leftMergeTemp] at hx
  | f :: fs, tmp, x, hx => by
      rw [leftMergeTemp] at hx
      rcases List.mem_append.mp hx with h | h
      · have hf : x.1 = f := leftMergeRow_fst f tmp x h
        refine ⟨by rw [hf]; exact List.mem_cons_self _ _, ?_⟩
        intro m hm
        have := leftMergeRow_snd f tmp x h m hm
        rw [hf]
        exact this
      · obtain ⟨h1, h2⟩ := leftMergeTemp_mem fs tmp x h
        exact ⟨List.mem_cons_of_mem _ h1, h2⟩

/-- Provenance of an aligned (post-`dropna`) row: its fundamentals part is
a `fund` row, and its trade date and price come from a matching `temp`
row for its key. -/
theorem merged_mem_spec (lags : List ℕ) (cfs : List CFRow) (incs : List IncRow)
    (pxs : List PxRow) :
    ∀ a ∈ merged lags cfs incs pxs,
      a.fund ∈ fund lags cfs incs ∧
      ∃ m ∈ temp (fundKeyed (fund lags cfs incs)) pxs,
        m.ticker = a.fund.base.ticker ∧ m.rpt = a.fund.base.rd ∧
        m.td = a.td ∧ m.price = a.price := by
  intro a ha
  unfold merged dropnaPrice at ha
  obtain ⟨fo, hfo, rfl⟩ := List.mem_map.mp ha
  have hpred := List.mem_filter.mp hfo
  obtain ⟨m, hm⟩ := Option.isSome_iff_exists.mp (by simpa using hpred.2)
  obtain ⟨h1, h2⟩ := leftMergeTemp_mem _ _ fo hpred.1
  obtain ⟨hmem, hticker, hrpt⟩ := h2 m hm
  refine ⟨h1, m, hmem, hticker, hrpt, ?_, ?_⟩ <;> simp [hm]

theorem metrics_mem_spec (lags : List ℕ) (cfs : List CFRow) (incs : List IncRow)
    (pxs : List PxRow) :
    ∀ mr ∈ metrics lags cfs incs pxs,
      mr.a ∈ merged lags cfs incs pxs ∧
      mr.mcap = mr.a.price * mr.a.fund.base.shares := by
  intro mr hmr
  obtain ⟨p, hp, rfl⟩ := List.mem_map.mp hmr
  exact ⟨groupGrowths_mem_fst hp, rfl⟩

theorem final_mem_spec (lags : List ℕ) (cfs : List CFRow) (incs : List IncRow)
    (pxs : List PxRow) :
    ∀ row ∈ final lags cfs incs pxs,
      ∃ mr ∈ metrics lags cfs incs pxs, toFinal mr = row := by
  intro row hrow
  obtain ⟨mr, hmr, h⟩ := List.mem_map.mp hrow
  exact ⟨mr, hmr, h⟩

/-! ## Helper lemmas: sort order is preserved down the pipeline -/

theorem fund_pairwise (lags : List ℕ) (cfs : List CFRow) (incs : List IncRow) :
    (fund lags cfs incs).Pairwise (fun a b => fundLE a.base b.base) := by
  have hsorted : (fundRows cfs incs).Pairwise fundLE :=
    List.sorted_insertionSort fundLE _
  rw [← groupGrowths_map_fst lags FundRow.ticker FundRow.fcfps
    (fundRows cfs incs) []] at hsorted
  rw [List.pairwise_map] at hsorted
  unfold fund fundGrowth
  rw [List.pairwise_map]
  exact hsorted

theorem leftMergeTemp_pairwise :
    ∀ (fs : List FundGRow) (tmp : List CandRow),
      fs.Pairwise (fun a b => fundLE a.base b.base) →
      (leftMergeTemp fs tmp).Pairwise (fun x y => fundLE x.1.base y.1.base)
  | [], _, _ => by simp [leftMergeTemp]
  | f :: fs, tmp, hp => by
      rw [leftMergeTemp]
      rw [List.pairwise_cons] at hp
      refine List.pairwise_append.mpr
        ⟨?_, leftMergeTemp_pairwise fs tmp hp.2, ?_⟩
      · refine List.Pairwise.imp_of_mem ?_ (List.pairwise_of_forall (fun _ _ => trivial))
        intro x y hx hy _
        rw [leftMergeRow_fst f tmp x hx, leftMergeRow_fst f tmp y hy]
        exact Or.inr ⟨rfl, le_refl _⟩
      · intro x hx y hy
        rw [leftMergeRow_fst f tmp x hx]
        obtain ⟨h1, _⟩ := leftMergeTemp_mem fs tmp y hy
        exact hp.1 y.1 h1

theorem merged_pairwise (lags : List ℕ) (cfs : List CFRow) (incs : List IncRow)
    (pxs : List PxRow) :
    (merged lags cfs incs pxs).Pairwise
      (fun a b => fundLE a.fund.base b.fund.base) := by
  have h2 := leftMergeTemp_pairwise (fund lags cfs incs)
    (temp (fundKeyed (fund lags cfs incs)) pxs) (fund_pairwise lags cfs incs)
  unfold merged dropnaPrice
  rw [List.pairwise_map]
  exact (h2.filter _)

/-- Within the aligned table, each ticker's rows appear in ascending
`Report Date` order. -/
theorem merged_filter_chain (lags : List ℕ) (cfs : List CFRow) (incs : List IncRow)
    (pxs : List PxRow) (tk : String) :
    List.Chain' (fun a b => a.fund.base.rd ≤ b.fund.base.rd)
      ((merged lags cfs incs pxs).filter (fun a => a.fund.base.ticker = tk)) := by
  have h := (merged_pairwise lags cfs incs pxs).filter
    (fun a => decide (a.fund.base.ticker = tk))
  refine List.Pairwise.chain' (List.Pairwise.imp_of_mem ?_ h)
  intro a b ha hb hab
  have hta : a.fund.base.ticker = tk := of_decide_eq_true ((List.mem_filter.mp ha).2)
  have htb : b.fund.base.ticker = tk := of_decide_eq_true ((List.mem_filter.mp hb).2)
  rcases hab with h1 | ⟨_, h1⟩
  · exact absurd ((strLT_iff _ _).mp h1) (by rw [hta, htb]; exact lt_irrefl _)
  · exact h1

/-! ## Helper lemmas: retry wrapper -/

theorem retryFrom_ok {α : Type} (calls : ℕ → CallResult α) (fuel i : ℕ)
    (sl : List ℕ) (v : α) (h : calls i = CallResult.ok v) :
    retryFrom calls (fuel + 1) i sl = RetryResult.success v sl := by
  unfold retryFrom
  rw [h]

theorem retryFrom_raise {α : Type} (calls : ℕ → CallResult α) (fuel i : ℕ)
    (sl : List ℕ) (s : ℕ) (h : calls i = CallResult.httpErr s)
    (hcond : i = MAX_RETRY - 1 ∨ ¬(500 ≤ s ∧ s < 600)) :
    retryFrom calls (fuel + 1) i sl = RetryResult.raised s sl := by
  unfold retryFrom
  rw [h]
  exact if_pos hcond

theorem retryFrom_again {α : Type} (calls : ℕ → CallResult α) (fuel i : ℕ)
    (sl : List ℕ) (s : ℕ) (h : calls i = CallResult.httpErr s)
    (hcond : ¬(i = MAX_RETRY - 1 ∨ ¬(500 ≤ s ∧ s < 600))) :
    retryFrom calls (fuel + 1) i sl =
      retryFrom calls fuel (i + 1) (sl ++ [RETRY_DELAY * 2 ^ i]) := by
  conv_lhs => unfold retryFrom
  rw [h]
  exact if_neg hcond

/-- Skipping `d` consecutive retryable (5xx) failures accumulates the
exponential back-off sleeps `RETRY_DELAY * 2 ^ attempt`. -/
theorem retryFrom_skip {α : Type} (calls : ℕ → CallResult α) :
    ∀ (d i : ℕ) (sl : List ℕ),
      (∀ k, i ≤ k → k < i + d →
        ∃ s, calls k = CallResult.httpErr s ∧ 500 ≤ s ∧ s < 600) →
      i + d < MAX_RETRY →
      retryFrom calls (MAX_RETRY - i) i sl =
        retryFrom calls (MAX_RETRY - (i + d)) (i + d)
          (sl ++ (List.range d).map (fun k => RETRY_DELAY * 2 ^ (i + k)))
  | 0, i, sl, _, _ => by simp
  | d + 1, i, sl, h5, hlt => by
      obtain ⟨s, hs, h5xx⟩ := h5 i (le_refl i) (by omega)
      have hi4 : ¬(i = MAX_RETRY - 1) := by
        unfold MAX_RETRY at hlt ⊢
        omega
      have hfuel : MAX_RETRY - i = (MAX_RETRY - (i + 1)) + 1 := by
        unfold MAX_RETRY at hlt ⊢
        omega
      rw [hfuel, retryFrom_again calls _ i sl s hs (by push_neg; exact ⟨hi4, h5xx⟩)]
      have hrec := retryFrom_skip calls d (i + 1) (sl ++ [RETRY_DELAY * 2 ^ i])
        (fun k hk1 hk2 => h5 k (by omega) (by omega)) (by omega)
      rw [hrec]
      have harg1 : i + 1 + d = i + (d + 1) := by omega
      have harg2 : (sl ++ [RETRY_DELAY * 2 ^ i]) ++
          (List.range d).map (fun k => RETRY_DELAY * 2 ^ (i + 1 + k)) =
          sl ++ (List.range (d + 1)).map (fun k => RETRY_DELAY * 2 ^ (i + k)) := by
        rw [List.range_succ_eq_map, List.map_cons, List.map_map, List.append_assoc,
          List.singleton_append]
        refine congrArg (sl ++ ·) (congrArg (RETRY_DELAY * 2 ^ i :: ·) ?_)
        refine List.map_congr_left (fun k _ => ?_)
        have : i + 1 + k = i + Nat.succ k := by omega
        simp [Function.comp, this]
      rw [harg1, harg2]

/-- `retry` after `j` consecutive retryable failures is at attempt `j`
with the back-off sleeps for attempts `0..j-1` performed. -/
theorem retry_skip {α : Type} (calls : ℕ → CallResult α) (j : ℕ)
    (hj : j < MAX_RETRY)
    (h5 : ∀ k < j, ∃ s, calls k = CallResult.httpErr s ∧ 500 ≤ s ∧ s < 600) :
    retry calls = retryFrom calls (MAX_RETRY - j) j
      ((List.range j).map (fun k => RETRY_DELAY * 2 ^ k)) := by
  have h := retryFrom_skip calls j 0 []
    (fun k _ hk2 => h5 k (by omega)) (by omega)
  unfold retry
  simpa using h

/-! ## Claim theorems -/

/-- Claim C5: the retry wrapper returns the wrapped call's result on the
first successful attempt (after any number of retryable 5xx failures, each
preceded by a sleep of `RETRY_DELAY * 2 ^ attempt`); a non-5xx `HTTPError`
is re-raised immediately without further attempts; and when all
`MAX_RETRY` attempts fail with 5xx errors the last error is re-raised
after the back-off sleeps of the first `MAX_RETRY - 1` attempts. -/
theorem retry_wrapper_behavior {α : Type} (calls : ℕ → CallResult α) :
    (∀ (j : ℕ) (v : α), j < MAX_RETRY →
      (∀ k < j, ∃ s, calls k = CallResult.httpErr s ∧ 500 ≤ s ∧ s < 600) →
      calls j = CallResult.ok v →
      retry calls = RetryResult.success v
        ((List.range j).map (fun k => RETRY_DELAY * 2 ^ k))) ∧
    (∀ (j s : ℕ), j < MAX_RETRY →
      (∀ k < j, ∃ u, calls k = CallResult.httpErr u ∧ 500 ≤ u ∧ u < 600) →
      calls j = CallResult.httpErr s → ¬(500 ≤ s ∧ s < 600) →
      retry calls = RetryResult.raised s
        ((List.range j).map (fun k => RETRY_DELAY * 2 ^ k))) ∧
    ((∀ k < MAX_RETRY, ∃ s, calls k = CallResult.httpErr s ∧ 500 ≤ s ∧ s < 600) →
      ∃ s, calls (MAX_RETRY - 1) = CallResult.httpErr s ∧
        retry calls = RetryResult.raised s
          ((List.range (MAX_RETRY - 1)).map (fun k => RETRY_DELAY * 2 ^ k))) := by
  refine ⟨?_, ?_, ?_⟩
  · intro j v hj hprior hok
    rw [retry_skip calls j hj hprior]
    have hfuel : MAX_RETRY - j = (MAX_RETRY - j - 1) + 1 := by
      unfold MAX_RETRY at hj ⊢
      omega
    rw [hfuel, retryFrom_ok calls _ j _ v hok]
  · intro j s hj hprior herr hnot
    rw [retry_skip calls j hj hprior]
    have hfuel : MAX_RETRY - j = (MAX_RETRY - j - 1) + 1 := by
      unfold MAX_RETRY at hj ⊢
      omega
    rw [hfuel, retryFrom_raise calls _ j _ s herr (Or.inr hnot)]
  · intro hall
    have hj : MAX_RETRY - 1 < MAX_RETRY := by
      unfold MAX_RETRY
      omega
    obtain ⟨s, hs, h5xx⟩ := hall (MAX_RETRY - 1) hj
    refine ⟨s, hs, ?_⟩
    rw [retry_skip calls (MAX_RETRY - 1) hj
      (fun k hk => hall k (lt_trans hk hj))]
    have hfuel : MAX_RETRY - (MAX_RETRY - 1) = 0 + 1 := by
      unfold MAX_RETRY
      omega
    rw [hfuel, retryFrom_raise calls 0 _ _ s hs (Or.inl rfl)]

def callsW : ℕ → CallResult ℕ :=
  fun i => if i = 0 then CallResult.httpErr 503 else CallResult.ok 42

/-- Witness for C5: a call that fails once with a 503 and then succeeds is
retried exactly once, sleeps 8 seconds, and returns the value. -/
theorem retry_wrapper_behavior_witness :
    retry callsW = RetryResult.success 42 [8] := by
  have h := (retry_wrapper_behavior callsW).1 1 42 (by decide)
    (fun k hk => by
      interval_cases k
      exact ⟨503, rfl, by decide, by decide⟩)
    (by rfl)
  simpa using h

/-! ## Stage-level forms of the trailing-lag bridge -/

/-- Ticker `tk`'s FCF-per-share value sequence, in the order the growth
stage sees it (the sorted fundamentals frame). -/
def tickerFundSeq (cfs : List CFRow) (incs : List IncRow) (tk : String) :
    List PdVal :=
  ((fundRows cfs incs).filter (fun f => f.ticker = tk)).map FundRow.fcfps

/-- The `t`-th fundamentals row of ticker `tk` carries, for each configured
lag `L`, exactly the trailing-lag growth of the ticker's FCF-per-share
sequence at position `t`. -/
theorem fund_filter_getElem (lags : List ℕ) (cfs : List CFRow)
    (incs : List IncRow) (tk : String) (t : ℕ) :
    ((fund lags cfs incs).filter (fun g => g.base.ticker = tk))[t]? =
      (((fundRows cfs incs).filter (fun f => f.ticker = tk))[t]?).map (fun f =>
        FundGRow.mk f
          (lags.map (fun L => seqGrowth L (tickerFundSeq cfs incs tk) t))) := by
  unfold fund fundGrowth
  rw [List.filter_map]
  have hcomp : ((fun g : FundGRow => decide (g.base.ticker = tk)) ∘
      (fun p : FundRow × List PdVal => FundGRow.mk p.1 p.2)) =
      (fun p : FundRow × List PdVal => decide (FundRow.ticker p.1 = tk)) := rfl
  rw [hcomp, List.getElem?_map,
    groupGrowths_filter_getElem lags FundRow.ticker FundRow.fcfps tk
      (fundRows cfs incs) [] t]
  rw [Option.map_map]
  simp only [List.nil_append, List.filter_nil, List.length_nil, Nat.zero_add]
  rfl

/-- Ticker `tk`'s aligned price sequence, in the order the metrics stage
sees it. -/
def tickerMerged (lags : List ℕ) (cfs : List CFRow) (incs : List IncRow)
    (pxs : List PxRow) (tk : String) : List AlignedRow :=
  (merged lags cfs incs pxs).filter (fun a => a.fund.base.ticker = tk)

def tickerPrices (lags : List ℕ) (cfs : List CFRow) (incs : List IncRow)
    (pxs : List PxRow) (tk : String) : List PdVal :=
  (tickerMerged lags cfs incs pxs tk).map (fun a => PdVal.val a.price)

/-- The `t`-th metrics row of ticker `tk` is the `t`-th aligned row of that
ticker annotated with its market cap and, for each configured lag `L`, the
trailing-lag growth of the ticker's price sequence at position `t`. -/
theorem metrics_filter_getElem (lags : List ℕ) (cfs : List CFRow)
    (incs : List IncRow) (pxs : List PxRow) (tk : String) (t : ℕ) :
    ((metrics lags cfs incs pxs).filter (fun mr => mr.a.fund.base.ticker = tk))[t]? =
      ((tickerMerged lags cfs incs pxs tk)[t]?).map (fun a =>
        MetricRow.mk a (a.price * a.fund.base.shares)
          (lags.map (fun L =>
            seqGrowth L (tickerPrices lags cfs incs pxs tk) t))) := by
  unfold metrics withMetrics
  rw [List.filter_map]
  have hcomp : ((fun mr : MetricRow => decide (mr.a.fund.base.ticker = tk)) ∘
      (fun p : AlignedRow × List PdVal =>
        MetricRow.mk p.1 (p.1.price * p.1.fund.base.shares) p.2)) =
      (fun p : AlignedRow × List PdVal =>
        decide ((fun a : AlignedRow => a.fund.base.ticker) p.1 = tk)) := rfl
  rw [hcomp, List.getElem?_map,
    groupGrowths_filter_getElem lags (fun a => a.fund.base.ticker)
      (fun a => PdVal.val a.price) tk (merged lags cfs incs pxs) [] t]
  rw [Option.map_map]
  simp only [List.nil_append, List.filter_nil, List.length_nil, Nat.zero_add]
  rfl

/-- Claim C1: for every ticker and report date, every aligned (`temp`) row
takes its trade date and price from an actual price row of that ticker
whose trade date is at least the report date and at most the report date
plus 7 calendar days, and among all such qualifying price rows the one
with the smallest trade date is chosen; conversely every key that has a
qualifying price row gets an aligned row. -/
theorem price_alignment_selects_earliest_in_window (keys : List (String × ℤ))
    (px : List PxRow) :
    (∀ c ∈ temp keys px,
      (c.ticker, c.rpt) ∈ keys ∧
      (∃ p ∈ px, p.ticker = c.ticker ∧ p.td = c.td ∧ p.price = c.price) ∧
      c.rpt ≤ c.td ∧ c.td ≤ c.rpt + 7 ∧
      (∀ p ∈ px, p.ticker = c.ticker → c.rpt ≤ p.td → p.td ≤ c.rpt + 7 →
        c.td ≤ p.td)) ∧
    (∀ (tk : String) (r : ℤ), (tk, r) ∈ keys →
      (∃ p ∈ px, p.ticker = tk ∧ r ≤ p.td ∧ p.td ≤ r + 7) →
      ∃ c ∈ temp keys px, c.ticker = tk ∧ c.rpt = r) := by
  constructor
  · intro c hc
    obtain ⟨h1, h2, h3, h4⟩ := temp_mem_spec keys px c hc
    exact ⟨h1, h2, h3.1, h3.2, h4⟩
  · rintro tk r hk ⟨p, hp, hpt, h1, h2⟩
    have hd : CandRow.mk tk r p.td p.price ∈ (candAll keys px).filter inWindow := by
      refine List.mem_filter.mpr
        ⟨(mem_candAll_iff keys px _).mpr ⟨(tk, r), hk, p, hp, hpt, rfl⟩, ?_⟩
      simp only [inWindow, Bool.and_eq_true, decide_eq_true_eq]
      exact ⟨h1, h2⟩
    obtain ⟨c, hc, ht, hr⟩ := temp_cover keys px _ hd
    exact ⟨c, hc, ht, hr⟩

def pxsEx : List PxRow := [PxRow.mk "A" 18632 100, PxRow.mk "A" 18642 110]

/-- Witness for C1: the spec's example — report date 2021-01-04 (day
18631), prices on 2021-01-05 (18632, 100) and 2021-01-15 (18642, 110):
the chosen aligned row is the 2021-01-05 one with price 100. -/
theorem price_alignment_selects_earliest_in_window_witness :
    temp [("A", (18631 : ℤ))] pxsEx = [CandRow.mk "A" 18631 18632 100] ∧
    (∃ c ∈ temp [("A", (18631 : ℤ))] pxsEx, c.ticker = "A" ∧ c.rpt = 18631) := by
  refine ⟨by decide, ?_⟩
  exact (price_alignment_selects_earliest_in_window [("A", 18631)] pxsEx).2
    "A" 18631 (by decide) ⟨PxRow.mk "A" 18632 100, by decide, by decide,
      by decide, by decide⟩

/-- Claim C2: for every ticker, the per-ticker sequence of retained
(aligned) records is ordered by report date ascending; the metrics stage
annotates its `t`-th record with, for every configured lag `L`, the
trailing-lag growth of the ticker's price sequence at position `t` (the
identical algorithm the fundamentals stage applies to FCF-per-share);
that growth is null (`NaN`) whenever fewer than `L` prior records exist
for the ticker, and equals `(Price[t] - Price[t-L]) / Price[t-L]` exactly
whenever the lagged price exists and is nonzero. -/
theorem price_growth_is_trailing_lag_per_ticker (lags : List ℕ)
    (cfs : List CFRow) (incs : List IncRow) (pxs : List PxRow) (tk : String) :
    List.Chain' (fun a b => a.fund.base.rd ≤ b.fund.base.rd)
      (tickerMerged lags cfs incs pxs tk) ∧
    (∀ t : ℕ,
      ((metrics lags cfs incs pxs).filter
          (fun mr => mr.a.fund.base.ticker = tk))[t]? =
        ((tickerMerged lags cfs incs pxs tk)[t]?).map (fun a =>
          MetricRow.mk a (a.price * a.fund.base.shares)
            (lags.map (fun L =>
              seqGrowth L (tickerPrices lags cfs incs pxs tk) t)))) ∧
    (∀ L t : ℕ, t < L →
      seqGrowth L (tickerPrices lags cfs incs pxs tk) t = PdVal.nan) ∧
    (∀ (L t : ℕ) (q : ℚ) (a : AlignedRow), L ≤ t →
      (tickerPrices lags cfs incs pxs tk)[t - L]? = some (PdVal.val q) →
      q ≠ 0 →
      (tickerMerged lags cfs incs pxs tk)[t]? = some a →
      seqGrowth L (tickerPrices lags cfs incs pxs tk) t =
        PdVal.val ((a.price - q) / q)) := by
  refine ⟨merged_filter_chain lags cfs incs pxs tk,
    fun t => metrics_filter_getElem lags cfs incs pxs tk t,
    fun L t h => seqGrowth_of_lt L _ t h, ?_⟩
  intro L t q a hL hlag hq ha
  refine seqGrowth_formula L _ t q a.price hL hlag hq ?_
  unfold tickerPrices
  rw [List.getElem?_map, ha]
  rfl

def cfsEx : List CFRow := [CFRow.mk "A" 18631 10 (-2)]

def incsEx : List IncRow := [IncRow.mk "A" 18631 4]

set_option maxRecDepth 4000000 in
unseal Rat.mul Rat.inv Rat.add Rat.sub in
/-- Witness for C2: on a one-quarter input the single aligned record of
ticker "A" has null (NaN) price growth for lag 4, since no prior records
exist. -/
theorem price_growth_is_trailing_lag_per_ticker_witness :
    (tickerMerged basicLags cfsEx incsEx pxsEx "A").length = 1 ∧
    seqGrowth 4 (tickerPrices basicLags cfsEx incsEx pxsEx "A") 0 = PdVal.nan :=
  ⟨by decide,
   (price_growth_is_trailing_lag_per_ticker basicLags cfsEx incsEx pxsEx
      "A").2.2.1 4 0 (by decide)⟩

def cfsC : List CFRow :=
  [CFRow.mk "A" 18631 0 0, CFRow.mk "A" 18721 1 0, CFRow.mk "A" 18811 1 0,
   CFRow.mk "A" 18901 1 0, CFRow.mk "A" 18991 5 0]

def incsC : List IncRow :=
  [IncRow.mk "A" 18631 1, IncRow.mk "A" 18721 1, IncRow.mk "A" 18811 1,
   IncRow.mk "A" 18901 1, IncRow.mk "A" 18991 1]

set_option maxRecDepth 4000000 in
unseal Rat.mul Rat.inv Rat.add Rat.sub in
/-- Counterexample to claim C3 as stated: with FCF-per-share sequence
[0, 1, 1, 1, 5] for one ticker, the lag-4 growth of the 5th record has a
lagged value of exactly zero, yet the emitted value is `+inf`
(float64 `(5 - 0) / 0`), which is not null — the claim's "undefined
(null) when the lagged value is zero" fails on the code. -/
theorem fcfps_growth_zero_denominator_not_null_cex :
    (((fund basicLags cfsC incsC).filter (fun g => g.base.ticker = "A"))[4]?).map
        FundGRow.growths = some [PdVal.pinf, PdVal.nan] ∧
    (tickerFundSeq cfsC incsC "A")[4 - 4]? = some (PdVal.val 0) ∧
    PdVal.pinf.isNull = false := by
  refine ⟨?_, by decide, by decide⟩
  rw [fund_filter_getElem basicLags cfsC incsC "A" 4, Option.map_map]
  have hseq : tickerFundSeq cfsC incsC "A" =
      [PdVal.val 0, PdVal.val 1, PdVal.val 1, PdVal.val 1, PdVal.val 5] := by
    decide
  have hrow : ((fundRows cfsC incsC).filter (fun f => f.ticker = "A"))[4]? =
      some (FundRow.mk "A" 18991 5 0 1) := by decide
  rw [hseq, hrow]
  simp only [Option.map_some', Function.comp]
  decide

/-- Claim C3 (amended): the FCF-per-share growth value for lag `L` at
position `t` of a ticker's sequence is null (`NaN`) when fewer than `L`
prior records exist; when the lagged value exists and is exactly zero the
value is null only if the current value is also zero (`0/0`), otherwise it
is a signed infinity (`±inf`), which is emitted and is not null.  The
growth stage emits every row of the fundamentals frame unchanged (rows are
never dropped because of an undefined growth value). -/
theorem fcfps_growth_null_conditions (lags : List ℕ) (cfs : List CFRow)
    (incs : List IncRow) (tk : String) :
    ((fund lags cfs incs).map FundGRow.base = fundRows cfs incs) ∧
    (∀ t : ℕ, ((fund lags cfs incs).filter (fun g => g.base.ticker = tk))[t]? =
      (((fundRows cfs incs).filter (fun f => f.ticker = tk))[t]?).map (fun f =>
        FundGRow.mk f (lags.map (fun L =>
          seqGrowth L (tickerFundSeq cfs incs tk) t)))) ∧
    (∀ L t : ℕ, t < L → seqGrowth L (tickerFundSeq cfs incs tk) t = PdVal.nan) ∧
    (∀ (L t : ℕ) (c : ℚ), L ≤ t →
      (tickerFundSeq cfs incs tk)[t - L]? = some (PdVal.val 0) →
      (tickerFundSeq cfs incs tk)[t]? = some (PdVal.val c) →
      seqGrowth L (tickerFundSeq cfs incs tk) t =
        (if c = 0 then PdVal.nan else if 0 < c then PdVal.pinf else PdVal.ninf)) := by
  refine ⟨?_, fun t => fund_filter_getElem lags cfs incs tk t,
    fun L t h => seqGrowth_of_lt L _ t h,
    fun L t c hL hlag hcur => seqGrowth_zero_denom L _ t c hL hlag hcur⟩
  unfold fund fundGrowth
  rw [List.map_map]
  exact groupGrowths_map_fst lags FundRow.ticker FundRow.fcfps (fundRows cfs incs) []

set_option maxRecDepth 4000000 in
unseal Rat.mul Rat.inv Rat.add Rat.sub in
/-- Witness for the amended C3: on the [0, 1, 1, 1, 5] FCF-per-share
sequence the 5th record's lag-8 growth is null (insufficient history), and
its lag-4 growth — whose lagged value is zero and current value 5 — is
`+inf`, not null. -/
theorem fcfps_growth_null_conditions_witness :
    seqGrowth 8 (tickerFundSeq cfsC incsC "A") 4 = PdVal.nan ∧
    seqGrowth 4 (tickerFundSeq cfsC incsC "A") 4 = PdVal.pinf := by
  constructor
  · exact (fcfps_growth_null_conditions basicLags cfsC incsC "A").2.2.1 8 4
      (by decide)
  · have h := (fcfps_growth_null_conditions basicLags cfsC incsC "A").2.2.2 4 4 5
      (by decide) (by decide) (by decide)
    rw [if_neg (by norm_num), if_pos (by norm_num)] at h
    exact h

/-- Claim C4: a fundamentals key with no trade date in
`[ReportDate, ReportDate + 7]` never appears in the final output; and
every final-output row comes from a metrics row whose matched trade date
lies in that window (its price is present by construction — `dropna`
removed all null-price rows). -/
theorem no_price_match_dropped_and_window_invariant (lags : List ℕ)
    (cfs : List CFRow) (incs : List IncRow) (pxs : List PxRow) :
    (∀ (tk : String) (r : ℤ),
      (∀ p ∈ pxs, p.ticker = tk → ¬(r ≤ p.td ∧ p.td ≤ r + 7)) →
      ∀ row ∈ final lags cfs incs pxs, ¬(row.ticker = tk ∧ row.rd = r)) ∧
    (∀ row ∈ final lags cfs incs pxs,
      ∃ mr ∈ metrics lags cfs incs pxs, toFinal mr = row ∧
        mr.a.fund.base.rd ≤ mr.a.td ∧ mr.a.td ≤ mr.a.fund.base.rd + 7) := by
  constructor
  · rintro tk r hno row hrow ⟨htk, hrd⟩
    obtain ⟨mr, hmr, rfl⟩ := final_mem_spec lags cfs incs pxs row hrow
    have hma := (metrics_mem_spec lags cfs incs pxs mr hmr).1
    obtain ⟨_, m, hm, hmt, hmr2, htd, _⟩ :=
      merged_mem_spec lags cfs incs pxs mr.a hma
    obtain ⟨_, ⟨p, hp, hpt, hptd, _⟩, hwin, _⟩ :=
      temp_mem_spec (fundKeyed (fund lags cfs incs)) pxs m hm
    have htk2 : m.ticker = tk := by rw [hmt]; exact htk
    have hrd2 : m.rpt = r := by rw [hmr2]; exact hrd
    refine hno p hp (by rw [hpt, htk2]) ⟨?_, ?_⟩
    · rw [hptd, ← hrd2]; exact hwin.1
    · rw [hptd, ← hrd2]; exact hwin.2
  · intro row hrow
    obtain ⟨mr, hmr, h⟩ := final_mem_spec lags cfs incs pxs row hrow
    have hma := (metrics_mem_spec lags cfs incs pxs mr hmr).1
    obtain ⟨_, m, hm, _, hmr2, htd, _⟩ :=
      merged_mem_spec lags cfs incs pxs mr.a hma
    obtain ⟨_, _, hwin, _⟩ :=
      temp_mem_spec (fundKeyed (fund lags cfs incs)) pxs m hm
    refine ⟨mr, hmr, h, ?_, ?_⟩
    · rw [← hmr2, ← htd]; exact hwin.1
    · rw [← hmr2, ← htd]; exact hwin.2

def pxsLate : List PxRow := [PxRow.mk "A" 18642 110]

def mrowEx : MetricRow :=
  MetricRow.mk
    (AlignedRow.mk
      (FundGRow.mk (FundRow.mk "A" 18631 10 (-2) 4) [PdVal.nan, PdVal.nan])
      18632 100)
    400 [PdVal.nan, PdVal.nan]

set_option maxRecDepth 4000000 in
unseal Rat.mul Rat.inv Rat.add Rat.sub in
/-- Witness for C4: with the only price on 2021-01-15 (outside the 7-day
window of report date 2021-01-04) the output is empty, and on the
in-window input the single retained row's trade date lies in the window. -/
theorem no_price_match_dropped_and_window_invariant_witness :
    final basicLags cfsEx incsEx pxsLate = [] ∧
    (∃ mr ∈ metrics basicLags cfsEx incsEx pxsEx, toFinal mr = toFinal mrowEx ∧
      mr.a.fund.base.rd ≤ mr.a.td ∧ mr.a.td ≤ mr.a.fund.base.rd + 7) := by
  refine ⟨by decide, ?_⟩
  exact (no_price_match_dropped_and_window_invariant basicLags cfsEx incsEx
    pxsEx).2 (toFinal mrowEx) (by decide)

/-- Claim C7: for every retained row, `Market_Cap` is exactly the product
of the aligned price and the row's `Shares (Basic)` value. -/
theorem market_cap_is_price_times_shares (lags : List ℕ) (cfs : List CFRow)
    (incs : List IncRow) (pxs : List PxRow) :
    (∀ mr ∈ metrics lags cfs incs pxs,
      mr.mcap = mr.a.price * mr.a.fund.base.shares) ∧
    (∀ row ∈ final lags cfs incs pxs,
      ∃ mr ∈ metrics lags cfs incs pxs, toFinal mr = row ∧
        row.mcap = mr.a.price * mr.a.fund.base.shares ∧
        row.price = mr.a.price) := by
  constructor
  · intro mr hmr
    exact (metrics_mem_spec lags cfs incs pxs mr hmr).2
  · intro row hrow
    obtain ⟨mr, hmr, h⟩ := final_mem_spec lags cfs incs pxs row hrow
    refine ⟨mr, hmr, h, ?_, ?_⟩
    · rw [← h]
      exact (metrics_mem_spec lags cfs incs pxs mr hmr).2
    · rw [← h]
      rfl

set_option maxRecDepth 4000000 in
unseal Rat.mul Rat.inv Rat.add Rat.sub in
/-- Witness for C7: on the example input the single retained row has
price 100 and 4 shares, and its market cap is 100 * 4 = 400. -/
theorem market_cap_is_price_times_shares_witness :
    metrics basicLags cfsEx incsEx pxsEx = [mrowEx] ∧
    mrowEx.mcap = mrowEx.a.price * mrowEx.a.fund.base.shares := by
  refine ⟨by decide, ?_⟩
  exact (market_cap_is_price_times_shares basicLags cfsEx incsEx pxsEx).1
    mrowEx (by decide)

/-- Claim C6: CapEx column resolution picks the first name of the fixed
priority list present among the cash-flow table's columns (spelled out as
the nested conditional over the four candidates), and the run aborts with
the `KeyError` before producing any output exactly when no candidate is
present. -/
theorem capex_resolution_first_candidate_and_fail_fast (cols : List String)
    (lags : List ℕ) (cfs : List CFRow) (incs : List IncRow) (pxs : List PxRow) :
    (capexCol cols =
      (if "Change in Fixed Assets & Intangibles" ∈ cols then
        some "Change in Fixed Assets & Intangibles"
      else if "Purchase of PPE & Intangibles, net" ∈ cols then
        some "Purchase of PPE & Intangibles, net"
      else if "Capital Expenditures (Fixed Assets)" ∈ cols then
        some "Capital Expenditures (Fixed Assets)"
      else if "Capital Expenditures" ∈ cols then
        some "Capital Expenditures"
      else none)) ∧
    ((∃ e, runPipeline lags cols cfs incs pxs = Except.error e) ↔
      ∀ c ∈ CAPEX_CANDS, c ∉ cols) := by
  constructor
  · unfold capexCol CAPEX_CANDS
    by_cases h1 : "Change in Fixed Assets & Intangibles" ∈ cols <;>
      by_cases h2 : "Purchase of PPE & Intangibles, net" ∈ cols <;>
        by_cases h3 : "Capital Expenditures (Fixed Assets)" ∈ cols <;>
          by_cases h4 : "Capital Expenditures" ∈ cols <;>
            simp [List.find?_cons, h1, h2, h3, h4]
  · constructor
    · rintro ⟨e, he⟩ c hcm hmem
      unfold runPipeline at he
      rcases hc : capexCol cols with _ | c2
      · have := List.find?_eq_none.mp hc c hcm
        simp at this
        exact this hmem
      · rw [hc] at he
        exact absurd he (by simp)
    · intro h
      have hnone : capexCol cols = none := by
        apply List.find?_eq_none.mpr
        intro c hcm
        simpa using h c hcm
      unfold runPipeline
      rw [hnone]
      exact ⟨"CapEx column not found", rfl⟩

/-- Witness for C6: a table with only "Ticker" and "Capital Expenditures"
resolves to "Capital Expenditures" (the lowest-priority candidate), and a
table with no candidate column makes the run abort with an error. -/
theorem capex_resolution_first_candidate_and_fail_fast_witness :
    capexCol ["Ticker", "Capital Expenditures"] = some "Capital Expenditures" ∧
    (∃ e, runPipeline basicLags ["Ticker"] [] [] [] = Except.error e) := by
  constructor
  · rw [(capex_resolution_first_candidate_and_fail_fast
      ["Ticker", "Capital Expenditures"] basicLags [] [] []).1]
    decide
  · exact (capex_resolution_first_candidate_and_fail_fast
      ["Ticker"] basicLags [] [] []).2.mpr (by decide)

/-- Claim C8: the pipeline is deterministic — two runs on equal inputs for
the cash-flow, income and share-price tables (and the same column set)
produce equal outputs, row for row and value for value. -/
theorem pipeline_deterministic (lags : List ℕ) (cols cols2 : List String)
    (cfs cfs2 : List CFRow) (incs incs2 : List IncRow) (pxs pxs2 : List PxRow)
    (h1 : cols = cols2) (h2 : cfs = cfs2) (h3 : incs = incs2)
    (h4 : pxs = pxs2) :
    runPipeline lags cols cfs incs pxs = runPipeline lags cols2 cfs2 incs2 pxs2 := by
  rw [h1, h2, h3, h4]

/-- Witness for C8: re-running on the example inputs yields the identical
output. -/
theorem pipeline_deterministic_witness :
    runPipeline basicLags ["Capital Expenditures"] cfsEx incsEx pxsEx =
      runPipeline basicLags ["Capital Expenditures"] cfsEx incsEx pxsEx :=
  pipeline_deterministic basicLags _ _ _ _ _ _ _ _ rfl rfl rfl rfl

/-- Claim C9: a (Ticker, Report Date) key yields a row of the inner-merged
fundamentals frame exactly when it is present in both the quarterly
cash-flow table and the quarterly income table; keys present in only one
of the two are silently dropped before any growth computation. -/
theorem inner_join_requires_both_tables (cfs : List CFRow) (incs : List IncRow)
    (tk : String) (r : ℤ) :
    (∃ f ∈ innerMergeFund cfs incs, f.ticker = tk ∧ f.rd = r) ↔
      ((∃ c ∈ cfs, c.ticker = tk ∧ c.rd = r) ∧
       (∃ i ∈ incs, i.ticker = tk ∧ i.rd = r)) := by
  induction cfs with
  | nil => simp [innerMergeFund]
  | cons c cs ih =>
      rw [innerMergeFund]
      constructor
      · rintro ⟨f, hf, ht, hr⟩
        rcases List.mem_append.mp hf with h | h
        · obtain ⟨i, hi, rfl⟩ := List.mem_map.mp h
          have hip := List.mem_filter.mp hi
          have hprops : i.ticker = c.ticker ∧ i.rd = c.rd :=
            of_decide_eq_true hip.2
          exact ⟨⟨c, List.mem_cons_self _ _, ht, hr⟩,
            ⟨i, hip.1, by rw [hprops.1]; exact ht, by rw [hprops.2]; exact hr⟩⟩
        · obtain ⟨⟨c2, hc2, p1, p2⟩, hinc⟩ := ih.mp ⟨f, h, ht, hr⟩
          exact ⟨⟨c2, List.mem_cons_of_mem _ hc2, p1, p2⟩, hinc⟩
      · rintro ⟨⟨c2, hc2, hct, hcr⟩, ⟨i, hi, hit, hir⟩⟩
        rcases List.mem_cons.mp hc2 with rfl | hc2
        · refine ⟨FundRow.mk c2.ticker c2.rd c2.ocf c2.capex i.shares,
            List.mem_append.mpr (Or.inl ?_), hct, hcr⟩
          refine List.mem_map.mpr ⟨i, List.mem_filter.mpr ⟨hi, ?_⟩, rfl⟩
          refine decide_eq_true ⟨?_, ?_⟩
          · rw [hit, hct]
          · rw [hir, hcr]
        · obtain ⟨f, hf, p⟩ := ih.mpr ⟨⟨c2, hc2, hct, hcr⟩, ⟨i, hi, hit, hir⟩⟩
          exact ⟨f, List.mem_append.mpr (Or.inr hf), p⟩

def cfsW9 : List CFRow := [CFRow.mk "A" 18631 10 (-2), CFRow.mk "B" 18631 5 0]

/-- Witness for C9: with income data for "A" only, the key ("A", 18631)
yields a merged row and the key ("B", 18631), present only in the
cash-flow table, yields none. -/
theorem inner_join_requires_both_tables_witness :
    (∃ f ∈ innerMergeFund cfsW9 incsEx, f.ticker = "A" ∧ f.rd = 18631) ∧
    ¬(∃ f ∈ innerMergeFund cfsW9 incsEx, f.ticker = "B" ∧ f.rd = 18631) := by
  constructor
  · exact (inner_join_requires_both_tables cfsW9 incsEx "A" 18631).mpr
      ⟨by decide, by decide⟩
  · intro h
    exact absurd ((inner_join_requires_both_tables cfsW9 incsEx "B" 18631).mp
      h).2 (by decide)

/-- Claim C10: frame property — the alignment merge and the finalizer
leave all fundamentals-derived fields unchanged: every metrics row's
fundamentals part is literally a member of the fundamentals stage output,
and the final row built from it carries that member's Ticker, Report
Date, FCF, FCF-per-share and FCF-per-share growth values; alignment only
added the TradeDate and Price. -/
theorem alignment_preserves_fundamental_fields (lags : List ℕ)
    (cfs : List CFRow) (incs : List IncRow) (pxs : List PxRow) :
    ∀ mr ∈ metrics lags cfs incs pxs,
      ∃ f ∈ fund lags cfs incs,
        mr.a.fund = f ∧
        (toFinal mr).ticker = f.base.ticker ∧
        (toFinal mr).rd = f.base.rd ∧
        (toFinal mr).fcf = f.base.fcf ∧
        (toFinal mr).fcfps = f.base.fcfps ∧
        (toFinal mr).fcfpsGrowths = f.growths := by
  intro mr hmr
  have h1 := (metrics_mem_spec lags cfs incs pxs mr hmr).1
  have h2 := (merged_mem_spec lags cfs incs pxs mr.a h1).1
  exact ⟨mr.a.fund, h2, rfl, rfl, rfl, rfl, rfl, rfl⟩

set_option maxRecDepth 4000000 in
unseal Rat.mul Rat.inv Rat.add Rat.sub in
/-- Witness for C10: the example's single metrics row carries, unchanged,
the fundamentals row computed for ("A", 2021-01-04). -/
theorem alignment_preserves_fundamental_fields_witness :
    ∃ f ∈ fund basicLags cfsEx incsEx,
      mrowEx.a.fund = f ∧
      (toFinal mrowEx).ticker = f.base.ticker ∧
      (toFinal mrowEx).rd = f.base.rd ∧
      (toFinal mrowEx).fcf = f.base.fcf ∧
      (toFinal mrowEx).fcfps = f.base.fcfps ∧
      (toFinal mrowEx).fcfpsGrowths = f.growths :=
  alignment_preserves_fundamental_fields basicLags cfsEx incsEx pxsEx mrowEx
    (by decide)
